import Mathlib

/-!
Shallow embedding of `crates/bevy_ui/src/focus.rs`: the per-frame UI focus
pass (`focus_ui`) that resolves which UI nodes are hovered or clicked.

Coordinates are modelled as rationals (the source uses `f32`; the claims
concern order comparisons and component-wise min/max, which are exact).
The ECS query is modelled as a list of element rows in iteration order;
component mutation is modelled as a trace of indexed writes applied in
program order (reset writes first, then the focus-policy walker's writes),
mirroring the source's mutation order exactly.
-/

namespace Focus

/-- Planar vector, embedding `bevy_math::Vec2`. -/
structure Vec2 where
  x : ℚ
  y : ℚ
  deriving DecidableEq, Repr

/-- Spatial vector, embedding `bevy_math::Vec3` (only the fields used). -/
structure Vec3 where
  x : ℚ
  y : ℚ
  z : ℚ
  deriving DecidableEq, Repr

/-- Embeds `Vec3::truncate`: drop the z coordinate. -/
def Vec3.truncate (v : Vec3) : Vec2 :=
  ⟨v.x, v.y⟩

/-- Embeds `Vec2::max`: component-wise maximum. -/
def Vec2.compMax (a b : Vec2) : Vec2 :=
  ⟨Max.max a.x b.x, Max.max a.y b.y⟩

/-- Embeds `Vec2::min`: component-wise minimum. -/
def Vec2.compMin (a b : Vec2) : Vec2 :=
  ⟨Min.min a.x b.x, Min.min a.y b.y⟩

/-- Embeds componentwise subtraction on `Vec2`. -/
def Vec2.sub (a b : Vec2) : Vec2 :=
  ⟨a.x - b.x, a.y - b.y⟩

/-- Embeds componentwise addition on `Vec2`. -/
def Vec2.add (a b : Vec2) : Vec2 :=
  ⟨a.x + b.x, a.y + b.y⟩

/-- Embeds `v / 2.0` on `Vec2`. -/
def Vec2.half (a : Vec2) : Vec2 :=
  ⟨a.x / 2, a.y / 2⟩

/-- Axis-aligned rectangle, embedding `bevy_sprite::Rect` (min/max corners). -/
structure Rect where
  min : Vec2
  max : Vec2
  deriving DecidableEq, Repr

/-- Embeds the `Interaction` component of `focus.rs`. -/
inductive Interaction where
  | Clicked
  | Hovered
  | None
  deriving DecidableEq, Repr

/-- Embeds the `FocusPolicy` component of `focus.rs`. -/
inductive FocusPolicy where
  | Block
  | Pass
  deriving DecidableEq, Repr

/-- Embeds the `Node` component (only its `size` is read by `focus_ui`). -/
structure Node where
  size : Vec2
  deriving DecidableEq, Repr

/-- Embeds `GlobalTransform` (only its `translation` is read by `focus_ui`). -/
structure GlobalTransform where
  translation : Vec3
  deriving DecidableEq, Repr

/-- Embeds the `CalculatedClip` component: a clip rectangle. -/
structure CalculatedClip where
  clip : Rect
  deriving DecidableEq, Repr

/-- One row of the source's `NodeQuery`:
`(&Node, &GlobalTransform, &mut Interaction, Option<&FocusPolicy>, Option<&CalculatedClip>)`. -/
structure Elem where
  node : Node
  global_transform : GlobalTransform
  interaction : Interaction
  focus_policy : Option FocusPolicy
  clip : Option CalculatedClip
  deriving DecidableEq, Repr

/-- Snapshot of `Input<MouseButton>` for the left button: the source queries
`just_pressed(MouseButton::Left)` and `pressed(MouseButton::Left)`. -/
structure MouseInput where
  just_pressed_left : Bool
  pressed_left : Bool
  deriving DecidableEq, Repr

/-- Modelled from the spec: the `Touches` resource of `bevy_input` (not under
`src/`); per the spec's input snapshot, it records for the current frame which
touch slots had a release (phase `Ended`) event, and `just_released(id)` tests
that slot `id` is among them. -/
structure Touches where
  just_released_ids : List Nat
  deriving DecidableEq, Repr

/-- Embeds `Touches::just_released(id)`: a touch-release event was reported
this frame for slot `id`. -/
def Touches.just_released (t : Touches) (id : Nat) : Bool :=
  t.just_released_ids.contains id

/-- Embeds lines 89-93 of `focus.rs`: the node's bounding box, centered at the
planar position with half-extents `node.size / 2.0`. -/
def nodeRect (e : Elem) : Rect :=
  let position := e.global_transform.translation
  let ui_position := position.truncate
  let extents := Vec2.half e.node.size
  { min := Vec2.sub ui_position extents, max := Vec2.add ui_position extents }

/-- Embeds lines 89-97 of `focus.rs`: the bounding box, clamped by the clip
rectangle when a `CalculatedClip` is present (`min := Vec2::max(min, clip.min)`,
`max := Vec2::min(max, clip.max)`). -/
def visibleRect (e : Elem) : Rect :=
  let r := nodeRect e
  match e.clip with
  | none => r
  | some c => { min := Vec2.compMax r.min c.clip.min, max := Vec2.compMin r.max c.clip.max }

/-- Embeds lines 99-100 of `focus.rs`: `(min.x..max.x).contains(&cursor.x) &&
(min.y..max.y).contains(&cursor.y)` with Rust's half-open range semantics. -/
def containsCursor (e : Elem) (cursor_position : Vec2) : Bool :=
  let r := visibleRect e
  (decide (r.min.x ≤ cursor_position.x) && decide (cursor_position.x < r.max.x))
    && (decide (r.min.y ≤ cursor_position.y) && decide (cursor_position.y < r.max.y))

/-- One entry of the source's `moused_over_z_sorted_nodes` vector:
`(focus_policy, interaction, FloatOrd(position.z))`; the mutable `interaction`
reference is modelled by the element's index in the query order. -/
structure Candidate where
  idx : Nat
  focus_policy : Option FocusPolicy
  z : ℚ
  deriving DecidableEq, Repr

/-- Builds the candidate entry for the element at query position `i`. -/
def mkCandidate (i : Nat) (e : Elem) : Candidate :=
  { idx := i, focus_policy := e.focus_policy, z := e.global_transform.translation.z }

/-- Embeds the `filter_map` of lines 85-109: keep, in query order, the elements
whose visible rectangle contains the cursor. `i` is the query position of the
first element of the remaining list. -/
def collectFrom (cursor_position : Vec2) : Nat → List Elem → List Candidate
  | _, [] => []
  | i, e :: rest =>
    if containsCursor e cursor_position then
      mkCandidate i e :: collectFrom cursor_position (i + 1) rest
    else
      collectFrom cursor_position (i + 1) rest

/-- The collected hit candidates, in query iteration order. -/
def candidates (elems : List Elem) (cursor_position : Vec2) : List Candidate :=
  collectFrom cursor_position 0 elems

/-- Embeds the sort key of line 111: `sort_by_key(|(_, _, z)| -*z)`. -/
def sortKey (c : Candidate) : ℚ :=
  -c.z

/-- Stable insertion of a candidate into a list sorted ascending by `sortKey`:
the new element is placed before every element of equal key, which together
with `sortByKey`'s recursion gives Rust's stable `sort_by_key`. -/
def insertSorted (x : Candidate) : List Candidate → List Candidate
  | [] => [x]
  | y :: ys => if sortKey x ≤ sortKey y then x :: y :: ys else y :: insertSorted x ys

/-- Embeds line 111: stable sort ascending by `sortKey` (descending by z). -/
def sortByKey : List Candidate → List Candidate
  | [] => []
  | x :: xs => insertSorted x (sortByKey xs)

/-- Embeds lines 113-115: `mouse_clicked` is true when the left button was just
pressed, is held, or the primary touch slot (id 0) was released this frame. -/
def mouse_clicked (mouse : MouseInput) (touches : Touches) : Bool :=
  mouse.just_pressed_left || mouse.pressed_left || touches.just_released 0

/-- Embeds line 124: `focus_policy.cloned().unwrap_or(FocusPolicy::Block)`. -/
def effectivePolicy (c : Candidate) : FocusPolicy :=
  c.focus_policy.getD FocusPolicy.Block

/-- Embeds the loop of lines 117-130: front-to-back over the sorted candidates,
write `Clicked` when `mouse_clicked` else `Hovered`, and break after the first
candidate whose effective focus policy is `Block`. The result is the list of
(element index, written interaction) pairs in write order. -/
def walk (clicked : Bool) : List Candidate → List (Nat × Interaction)
  | [] => []
  | c :: rest =>
    (c.idx, if clicked then Interaction.Clicked else Interaction.Hovered) ::
      match effectivePolicy c with
      | FocusPolicy.Block => []
      | FocusPolicy.Pass => walk clicked rest

/-- Applies one indexed component write to the interaction states. -/
def applyWrite (states : List Interaction) (w : Nat × Interaction) : List Interaction :=
  states.set w.1 w.2

/-- Applies a trace of indexed component writes in order. -/
def applyWrites (states : List Interaction) (ws : List (Nat × Interaction)) : List Interaction :=
  ws.foldl applyWrite states

/-- Embeds `set_all_interactions_to_none` (lines 133-137) as a write trace:
one `Interaction::None` write per tracked element, in query order. -/
def resetWrites (n : Nat) : List (Nat × Interaction) :=
  (List.range n).map (fun i => (i, Interaction.None))

/-- The writes performed by the focus-policy walker: none when the cursor
resolver reports no position (the early return of lines 80-83), otherwise the
walk over the depth-sorted hit candidates. -/
def walkerWrites (cursor : Option Vec2) (mouse : MouseInput) (touches : Touches)
    (elems : List Elem) : List (Nat × Interaction) :=
  match cursor with
  | none => []
  | some cursor_position =>
    walk (mouse_clicked mouse touches) (sortByKey (candidates elems cursor_position))

/-- The full trace of `Interaction` writes of one `focus_ui` run, in program
order: the reset pass first, then the walker. -/
def writeTrace (cursor : Option Vec2) (mouse : MouseInput) (touches : Touches)
    (elems : List Elem) : List (Nat × Interaction) :=
  resetWrites elems.length ++ walkerWrites cursor mouse touches elems

/-- Embeds `focus_ui` (lines 72-131): the interaction states after one run of
the pass, obtained by applying the write trace to the incoming states. -/
def focus_ui (cursor : Option Vec2) (mouse : MouseInput) (touches : Touches)
    (elems : List Elem) : List Interaction :=
  applyWrites (elems.map Elem.interaction) (writeTrace cursor mouse touches elems)

/-- The prefix of the sorted candidate list actually visited by the walker:
everything up to and including the first candidate whose effective focus
policy is `Block` (the whole list when no candidate blocks). -/
def visitedOf (cs : List Candidate) : List Candidate :=
  cs.take (cs.findIdx (fun c => decide (effectivePolicy c = FocusPolicy.Block)) + 1)

/-- The last value written to index `i` by a write trace, if any. -/
def lastWriteTo (i : Nat) : List (Nat × Interaction) → Option Interaction
  | [] => none
  | w :: ws =>
    match lastWriteTo i ws with
    | some v => some v
    | none => if w.1 = i then some w.2 else none

/-- The spec's `bounding_box(position, size)`: centered at the planar
position with half-extents `size / 2` (stated for comparison with `nodeRect`). -/
def spec_bounding_box (position size : Vec2) : Rect :=
  { min := Vec2.sub position (Vec2.half size), max := Vec2.add position (Vec2.half size) }

/-- The spec's rectangle intersection: component-wise maximum of the mins and
component-wise minimum of the maxes (stated for comparison with `visibleRect`). -/
def spec_intersect (a b : Rect) : Rect :=
  { min := Vec2.compMax a.min b.min, max := Vec2.compMin a.max b.max }

/-- Replaces the interaction field of each element by the paired value,
leaving geometry, policy and clip untouched. -/
def setInteractions (elems : List Elem) (states : List Interaction) : List Elem :=
  elems.zipWith (fun e s => { e with interaction := s }) states

lemma applyWrites_nil (s : List Interaction) : applyWrites s [] = s :=
  rfl

lemma applyWrites_cons (s : List Interaction) (w : Nat × Interaction)
    (ws : List (Nat × Interaction)) :
    applyWrites s (w :: ws) = applyWrites (applyWrite s w) ws :=
  rfl

lemma applyWrites_length (s : List Interaction) (ws : List (Nat × Interaction)) :
    (applyWrites s ws).length = s.length := by
  induction ws generalizing s with
  | nil => rfl
  | cons w ws ih =>
    rw [applyWrites_cons, ih]
    simp [applyWrite]

lemma lastWriteTo_append (i : Nat) (l₁ l₂ : List (Nat × Interaction)) :
    lastWriteTo i (l₁ ++ l₂) = (lastWriteTo i l₂).elim (lastWriteTo i l₁) some := by
  induction l₁ with
  | nil =>
    cases h : lastWriteTo i l₂ <;> simp [lastWriteTo, h]
  | cons w l₁ ih =>
    rw [List.cons_append]
    show (match lastWriteTo i (l₁ ++ l₂) with
      | some v => some v
      | none => if w.1 = i then some w.2 else none) = _
    rw [ih]
    cases h₂ : lastWriteTo i l₂ <;> cases h₁ : lastWriteTo i l₁ <;>
      simp [lastWriteTo, h₁]

/-- The element at index `i` after a write trace holds the last value written
to `i`, or its incoming value when the trace never writes `i`. -/
lemma applyWrites_getElem? (ws : List (Nat × Interaction)) (s : List Interaction) (i : Nat) :
    (applyWrites s ws)[i]? = (s[i]?).map (fun v => (lastWriteTo i ws).getD v) := by
  induction ws generalizing s with
  | nil =>
    cases h : s[i]? <;> simp [applyWrites_nil, lastWriteTo, h]
  | cons w ws ih =>
    rw [applyWrites_cons, ih]
    by_cases hw : w.1 = i
    · subst hw
      rcases hl : lastWriteTo w.1 ws with _ | v
      · by_cases hi : w.1 < s.length
        · have h1 : (applyWrite s w)[w.1]? = some w.2 := by
            simp [applyWrite, List.getElem?_set_self hi]
          have h2 : s[w.1]? = some (s.get ⟨w.1, hi⟩) := List.getElem?_eq_getElem hi
          rw [h1, h2]
          simp [lastWriteTo, hl]
        · have h1 : (applyWrite s w)[w.1]? = none := by
            rw [List.getElem?_eq_none_iff]
            simpa [applyWrite] using Nat.le_of_not_lt hi
          have h2 : s[w.1]? = none := by
            rw [List.getElem?_eq_none_iff]
            exact Nat.le_of_not_lt hi
          rw [h1, h2]
          simp
      · by_cases hi : w.1 < s.length
        · have h1 : (applyWrite s w)[w.1]? = some w.2 := by
            simp [applyWrite, List.getElem?_set_self hi]
          have h2 : s[w.1]? = some (s.get ⟨w.1, hi⟩) := List.getElem?_eq_getElem hi
          rw [h1, h2]
          simp [lastWriteTo, hl]
        · have h1 : (applyWrite s w)[w.1]? = none := by
            rw [List.getElem?_eq_none_iff]
            simpa [applyWrite] using Nat.le_of_not_lt hi
          have h2 : s[w.1]? = none := by
            rw [List.getElem?_eq_none_iff]
            exact Nat.le_of_not_lt hi
          rw [h1, h2]
          simp
    · have h1 : (applyWrite s w)[i]? = s[i]? := by
        simp [applyWrite, List.getElem?_set_ne hw]
      rw [h1]
      rcases hl : lastWriteTo i ws with _ | v <;>
        cases hs : s[i]? <;>
          simp [lastWriteTo, hl, hw, hs]

lemma lastWriteTo_resetWrites (i n : Nat) :
    lastWriteTo i (resetWrites n) = if i < n then some Interaction.None else none := by
  induction n with
  | zero => simp [resetWrites, lastWriteTo]
  | succ n ih =>
    have : resetWrites (n + 1) = resetWrites n ++ [(n, Interaction.None)] := by
      simp [resetWrites, List.range_succ]
    rw [this, lastWriteTo_append]
    by_cases hn : n = i
    · subst hn
      simp [lastWriteTo]
    · have : lastWriteTo i [(n, Interaction.None)] = none := by
        simp [lastWriteTo, hn]
      rw [this]
      rcases Nat.lt_trichotomy i n with h | h | h
      · simp [ih, h, Nat.lt_succ_of_lt h]
      · exact absurd h.symm hn
      · have h1 : ¬ i < n := Nat.not_lt.mpr (Nat.le_of_lt h)
        have h2 : ¬ i < n + 1 := Nat.not_lt.mpr h
        simp [ih, h1, h2]

lemma focus_ui_length (cursor : Option Vec2) (mouse : MouseInput) (touches : Touches)
    (elems : List Elem) : (focus_ui cursor mouse touches elems).length = elems.length := by
  rw [focus_ui, applyWrites_length, List.length_map]

/-- Characterization of one run of the pass at a tracked index: the result is
the walker's last write there, defaulting to the reset pass's `None`. -/
lemma focus_ui_char (cursor : Option Vec2) (mouse : MouseInput) (touches : Touches)
    (elems : List Elem) (i : Nat) (h : i < elems.length) :
    (focus_ui cursor mouse touches elems)[i]? =
      some ((lastWriteTo i (walkerWrites cursor mouse touches elems)).getD Interaction.None) := by
  rw [focus_ui, applyWrites_getElem?, writeTrace, lastWriteTo_append,
    lastWriteTo_resetWrites, if_pos h]
  have hi : (elems.map Elem.interaction)[i]? = some (Elem.interaction (elems.get ⟨i, h⟩)) := by
    rw [List.getElem?_eq_getElem (by simpa using h)]
    simp
  rw [hi]
  rcases hw : lastWriteTo i (walkerWrites cursor mouse touches elems) with _ | v <;> simp

/-- Membership in the collected candidates: exactly the query rows whose
visible rectangle contains the cursor, tagged with their query position. -/
lemma mem_collectFrom (p : Vec2) (elems : List Elem) (i : Nat) (c : Candidate) :
    c ∈ collectFrom p i elems ↔
      ∃ j : Nat, ∃ hj : j < elems.length,
        containsCursor (elems.get ⟨j, hj⟩) p = true ∧ c = mkCandidate (i + j) (elems.get ⟨j, hj⟩) := by
  induction elems generalizing i with
  | nil => simp [collectFrom]
  | cons e rest ih =>
    constructor
    · intro hc
      by_cases hcont : containsCursor e p
      · rw [collectFrom, if_pos hcont] at hc
        rcases List.mem_cons.1 hc with rfl | hc'
        · exact ⟨0, Nat.succ_pos _, by simpa using hcont, by simp⟩
        · obtain ⟨j, hj, hcnt, hceq⟩ := (ih (i + 1)).1 hc'
          refine ⟨j + 1, Nat.succ_lt_succ hj, ?_, ?_⟩
          · simpa using hcnt
          · rw [hceq]
            congr 1
            omega
      · rw [collectFrom, if_neg hcont] at hc
        obtain ⟨j, hj, hcnt, hceq⟩ := (ih (i + 1)).1 hc
        refine ⟨j + 1, Nat.succ_lt_succ hj, ?_, ?_⟩
        · simpa using hcnt
        · rw [hceq]
          congr 1
          omega
    · rintro ⟨j, hj, hcnt, hceq⟩
      cases j with
      | zero =>
        have he : (e :: rest).get ⟨0, hj⟩ = e := rfl
        rw [he] at hcnt hceq
        rw [collectFrom, if_pos hcnt]
        exact List.mem_cons.2 (Or.inl (by simpa using hceq))
      | succ j =>
        have hj' : j < rest.length := Nat.lt_of_succ_lt_succ hj
        have he : (e :: rest).get ⟨j + 1, hj⟩ = rest.get ⟨j, hj'⟩ := rfl
        rw [he] at hcnt hceq
        have hmem : c ∈ collectFrom p (i + 1) rest := by
          refine (ih (i + 1)).2 ⟨j, hj', hcnt, ?_⟩
          rw [hceq]
          congr 1
          omega
        rw [collectFrom]
        by_cases hcont : containsCursor e p
        · rw [if_pos hcont]
          exact List.mem_cons.2 (Or.inr hmem)
        · rw [if_neg hcont]
          exact hmem

lemma idx_bound_of_mem_collectFrom (p : Vec2) (elems : List Elem) (i : Nat)
    (c : Candidate) (hc : c ∈ collectFrom p i elems) :
    i ≤ c.idx ∧ c.idx < i + elems.length := by
  obtain ⟨j, hj, _, hceq⟩ := (mem_collectFrom p elems i c).1 hc
  rw [hceq]
  constructor
  · exact Nat.le_add_right i j
  · simpa [mkCandidate] using Nat.add_lt_add_left hj i

lemma pairwise_idx_collectFrom (p : Vec2) (elems : List Elem) (i : Nat) :
    (collectFrom p i elems).Pairwise (fun a b => a.idx < b.idx) := by
  induction elems generalizing i with
  | nil => simp [collectFrom]
  | cons e rest ih =>
    rw [collectFrom]
    by_cases hcont : containsCursor e p
    · rw [if_pos hcont]
      refine List.Pairwise.cons ?_ (ih (i + 1))
      intro b hb
      have := (idx_bound_of_mem_collectFrom p rest (i + 1) b hb).1
      simpa [mkCandidate] using Nat.lt_of_lt_of_le (Nat.lt_succ_self i) this
    · rw [if_neg hcont]
      exact ih (i + 1)

lemma idx_lt_of_mem_candidates (elems : List Elem) (p : Vec2) (c : Candidate)
    (hc : c ∈ candidates elems p) : c.idx < elems.length := by
  have := (idx_bound_of_mem_collectFrom p elems 0 c hc).2
  simpa using this

lemma insertSorted_perm (x : Candidate) (l : List Candidate) :
    (insertSorted x l).Perm (x :: l) := by
  induction l with
  | nil => simp [insertSorted]
  | cons y ys ih =>
    rw [insertSorted]
    by_cases hk : sortKey x ≤ sortKey y
    · rw [if_pos hk]
    · rw [if_neg hk]
      exact (ih.cons y).trans (List.Perm.swap x y ys)

lemma sortByKey_perm (l : List Candidate) : (sortByKey l).Perm l := by
  induction l with
  | nil => simp [sortByKey]
  | cons x xs ih =>
    rw [sortByKey]
    exact (insertSorted_perm x (sortByKey xs)).trans (ih.cons x)

lemma mem_insertSorted (a x : Candidate) (l : List Candidate) :
    a ∈ insertSorted x l ↔ a = x ∨ a ∈ l := by
  rw [(insertSorted_perm x l).mem_iff]
  simp

lemma sorted_insertSorted (x : Candidate) (l : List Candidate)
    (h : l.Pairwise (fun a b => sortKey a ≤ sortKey b)) :
    (insertSorted x l).Pairwise (fun a b => sortKey a ≤ sortKey b) := by
  induction l with
  | nil => simp [insertSorted]
  | cons y ys ih =>
    rw [List.pairwise_cons] at h
    obtain ⟨hy, hys⟩ := h
    rw [insertSorted]
    by_cases hk : sortKey x ≤ sortKey y
    · rw [if_pos hk]
      refine List.Pairwise.cons ?_ (List.Pairwise.cons hy hys)
      intro b hb
      rcases List.mem_cons.1 hb with rfl | hb'
      · exact hk
      · exact le_trans hk (hy b hb')
    · rw [if_neg hk]
      refine List.Pairwise.cons ?_ (ih hys)
      intro b hb
      rcases (mem_insertSorted b x ys).1 hb with rfl | hb'
      · exact le_of_lt (lt_of_not_le hk)
      · exact hy b hb'

lemma sortByKey_sorted (l : List Candidate) :
    (sortByKey l).Pairwise (fun a b => sortKey a ≤ sortKey b) := by
  induction l with
  | nil => simp [sortByKey]
  | cons x xs ih => exact sorted_insertSorted x (sortByKey xs) ih

lemma sortByKey_pairwise_z (l : List Candidate) :
    (sortByKey l).Pairwise (fun a b => b.z ≤ a.z) := by
  refine (sortByKey_sorted l).imp ?_
  intro a b hab
  have : -a.z ≤ -b.z := hab
  linarith

lemma filter_insertSorted (x : Candidate) (l : List Candidate) (q : ℚ) :
    (insertSorted x l).filter (fun c => decide (c.z = q)) =
      if x.z = q then x :: l.filter (fun c => decide (c.z = q))
      else l.filter (fun c => decide (c.z = q)) := by
  induction l with
  | nil =>
    by_cases hx : x.z = q <;> simp [insertSorted, hx]
  | cons y ys ih =>
    rw [insertSorted]
    by_cases hk : sortKey x ≤ sortKey y
    · rw [if_pos hk]
      by_cases hx : x.z = q <;> simp [hx]
    · rw [if_neg hk]
      have hzy : x.z < y.z := by
        have : -y.z < -x.z := lt_of_not_le hk
        linarith
      by_cases hx : x.z = q
      · have hyq : ¬ y.z = q := by
          intro hyq
          rw [hx, ← hyq] at hzy
          exact absurd hzy (lt_irrefl _)
        rw [if_pos hx]
        simp only [List.filter_cons, decide_eq_true_eq]
        rw [if_neg (by simpa using hyq), if_neg (by simpa using hyq)]
        rw [ih, if_pos hx]
      · rw [if_neg hx]
        simp only [List.filter_cons]
        rw [ih, if_neg hx]

lemma filter_sortByKey (l : List Candidate) (q : ℚ) :
    (sortByKey l).filter (fun c => decide (c.z = q)) =
      l.filter (fun c => decide (c.z = q)) := by
  induction l with
  | nil => simp [sortByKey]
  | cons x xs ih =>
    rw [sortByKey, filter_insertSorted]
    by_cases hx : x.z = q
    · rw [if_pos hx, ih]
      simp [List.filter_cons, hx]
    · rw [if_neg hx, ih]
      simp [List.filter_cons, hx]

/-- The walker's writes are exactly one write per candidate of the visited
prefix (everything up to and including the first blocking candidate), in
front-to-back order, all carrying the same interaction value. -/
lemma walk_eq_map_visited (clicked : Bool) (cs : List Candidate) :
    walk clicked cs = (visitedOf cs).map
      (fun c => (c.idx, if clicked then Interaction.Clicked else Interaction.Hovered)) := by
  induction cs with
  | nil => simp [walk, visitedOf]
  | cons c rest ih =>
    rw [walk]
    rcases hp : effectivePolicy c with _ | _
    · have hfind : (c :: rest).findIdx (fun c => decide (effectivePolicy c = FocusPolicy.Block)) = 0 := by
        rw [List.findIdx_cons]
        simp [hp]
      simp [visitedOf, hfind]
    · have hfind : (c :: rest).findIdx (fun c => decide (effectivePolicy c = FocusPolicy.Block)) =
          rest.findIdx (fun c => decide (effectivePolicy c = FocusPolicy.Block)) + 1 := by
        rw [List.findIdx_cons]
        simp [hp]
      rw [visitedOf, hfind, List.take_succ_cons, List.map_cons]
      rw [ih, visitedOf]

lemma lastWriteTo_map_idx (i : Nat) (st : Interaction) (cs : List Candidate) :
    lastWriteTo i (cs.map (fun c => (c.idx, st))) =
      if i ∈ cs.map Candidate.idx then some st else none := by
  induction cs with
  | nil => simp [lastWriteTo]
  | cons c rest ih =>
    rw [List.map_cons]
    show (match lastWriteTo i (rest.map (fun c => (c.idx, st))) with
      | some v => some v
      | none => if c.idx = i then some st else none) = _
    rw [ih]
    by_cases hmem : i ∈ rest.map Candidate.idx
    · simp [hmem]
    · by_cases hc : c.idx = i
      · simp [hmem, hc]
      · have hic : ¬ i = c.idx := fun h => hc h.symm
        simp [hmem, hc, hic]

/-- Full characterization of the pass when a cursor position is resolved: a
tracked element ends at the shared walker state when its index is in the
visited prefix of the depth-sorted candidates, else at `None`. -/
lemma focus_ui_some_char (mouse : MouseInput) (touches : Touches) (elems : List Elem)
    (p : Vec2) (i : Nat) (h : i < elems.length) :
    (focus_ui (some p) mouse touches elems)[i]? =
      some (if i ∈ (visitedOf (sortByKey (candidates elems p))).map Candidate.idx
            then (if mouse_clicked mouse touches then Interaction.Clicked else Interaction.Hovered)
            else Interaction.None) := by
  rw [focus_ui_char (some p) mouse touches elems i h]
  show some ((lastWriteTo i
      (walk (mouse_clicked mouse touches) (sortByKey (candidates elems p)))).getD
        Interaction.None) = _
  rw [walk_eq_map_visited, lastWriteTo_map_idx]
  by_cases hmem : i ∈ (visitedOf (sortByKey (candidates elems p))).map Candidate.idx <;>
    simp [hmem]

/-- Concrete element for witnesses: position (10, 10), size (5, 5), so its
rectangle is (7.5, 7.5) to (12.5, 12.5); depth 0, no policy, no clip. -/
def wElem : Elem :=
  { node := { size := ⟨5, 5⟩ }
    global_transform := { translation := ⟨10, 10, 0⟩ }
    interaction := Interaction.None
    focus_policy := none
    clip := none }

/-- Concrete foreground element for witnesses: same footprint as `wElem` but
at depth 5 with an explicit `Block` policy. -/
def wFront : Elem :=
  { wElem with
    global_transform := { translation := ⟨10, 10, 5⟩ }
    focus_policy := some FocusPolicy.Block }

/-- Mouse snapshot with the left button held. -/
def wMouseHeld : MouseInput := ⟨false, true⟩

/-- Mouse snapshot with no left-button activity. -/
def wMouseIdle : MouseInput := ⟨false, false⟩

/-- Touch snapshot with no releases this frame. -/
def wNoTouch : Touches := ⟨[]⟩

/-- Cursor position used by witnesses. -/
def wCursor : Vec2 := ⟨10, 10⟩

/-- Concrete clipped element for witnesses: `wElem` with a clip rectangle
(0, 0)-(11, 11), giving visible rectangle (7.5, 7.5)-(11, 11). -/
def wClipped : Elem :=
  { wElem with clip := some { clip := { min := ⟨0, 0⟩, max := ⟨11, 11⟩ } } }

/-- Concrete degenerate element for witnesses: `wElem` with a clip rectangle
(0, 0)-(1, 1) disjoint from its bounding box, so its visible rectangle is
inverted (min above max on both axes). -/
def wDegenerate : Elem :=
  { wElem with clip := some { clip := { min := ⟨0, 0⟩, max := ⟨1, 1⟩ } } }

/-- C1: the Focus-Policy Walker consumes the depth-sorted hit candidates
front-to-back; each visited candidate (the prefix of the sorted list up to and
including the first candidate whose effective focus policy — `focus_policy`,
or `Block` when absent — is `Block`, so `Pass` candidates let the walk
continue) ends the frame at `Clicked` when `ClickEdge` is true this frame and
at `Hovered` otherwise, while every farther candidate and every non-candidate
keeps the `None` state set by the Reset Pass. -/
theorem C1_focus_policy_walker (mouse : MouseInput) (touches : Touches)
    (elems : List Elem) (p : Vec2) (i : Nat) (h : i < elems.length) :
    (focus_ui (some p) mouse touches elems)[i]? =
      some (if i ∈ (visitedOf (sortByKey (candidates elems p))).map Candidate.idx
            then (if mouse_clicked mouse touches then Interaction.Clicked else Interaction.Hovered)
            else Interaction.None) :=
  focus_ui_some_char mouse touches elems p i h

/-- Witness for C1: with the cursor over two stacked blocking elements and the
mouse held, the rear element (query index 0, behind the blocking front) ends
at `None` even though the cursor is over it. -/
theorem C1_focus_policy_walker_witness :
    (focus_ui (some wCursor) wMouseHeld wNoTouch [wElem, wFront])[0]? =
      some Interaction.None := by
  have h := C1_focus_policy_walker wMouseHeld wNoTouch [wElem, wFront] wCursor 0 (by decide)
  rw [h]
  with_unfolding_all decide

/-- C2: for every element collection and every prior interaction assignment,
if the cursor source reports no position then after one run of the pass every
tracked element's interaction state is `None`. -/
theorem C2_no_cursor_all_none (mouse : MouseInput) (touches : Touches) (elems : List Elem) :
    focus_ui none mouse touches elems = elems.map (fun _ => Interaction.None) := by
  apply List.ext_getElem?
  intro i
  by_cases h : i < elems.length
  · rw [focus_ui_char none mouse touches elems i h]
    rw [List.getElem?_eq_getElem (by simpa using h)]
    simp [walkerWrites, lastWriteTo]
  · have h1 : (focus_ui none mouse touches elems)[i]? = none := by
      rw [List.getElem?_eq_none_iff, focus_ui_length]
      exact Nat.le_of_not_lt h
    have h2 : (elems.map fun _ => Interaction.None)[i]? = none := by
      rw [List.getElem?_eq_none_iff, List.length_map]
      exact Nat.le_of_not_lt h
    rw [h1, h2]

/-- C5: the collected hit candidates are sorted by depth key (world z) in
descending order — a candidate with strictly larger z precedes one with
smaller z — the sorted list is a permutation of the collected list, and
candidates of equal z keep their relative order from the query iteration
order (stability, stated as preservation of every fixed-z filter). -/
theorem C5_depth_sort (elems : List Elem) (p : Vec2) :
    (sortByKey (candidates elems p)).Pairwise (fun a b => b.z ≤ a.z)
    ∧ (sortByKey (candidates elems p)).Perm (candidates elems p)
    ∧ ∀ q : ℚ, (sortByKey (candidates elems p)).filter (fun c => decide (c.z = q))
        = (candidates elems p).filter (fun c => decide (c.z = q)) :=
  ⟨sortByKey_pairwise_z _, sortByKey_perm _, fun q => filter_sortByKey _ q⟩

/-- C6: `ClickEdge` (`mouse_clicked`) is true in a frame iff the left mouse
button transitioned to pressed this frame, or is currently held, or a
touch-release event was reported this frame for the primary slot (id 0). -/
theorem C6_click_edge (mouse : MouseInput) (touches : Touches) :
    mouse_clicked mouse touches = true ↔
      (mouse.just_pressed_left = true ∨ mouse.pressed_left = true
        ∨ 0 ∈ touches.just_released_ids) := by
  simp [mouse_clicked, Touches.just_released, List.contains_iff_exists_mem_beq, or_assoc]

/-- C10: a clip rectangle can only shrink an element's hit region: a hit with
the clip present is still a hit with the clip removed, and the clipped
visible rectangle is contained in the unclipped bounding box. -/
theorem C10_clip_only_shrinks (e : Elem) (p : Vec2) (hhit : containsCursor e p = true) :
    containsCursor { e with clip := none } p = true
    ∧ (nodeRect e).min.x ≤ (visibleRect e).min.x
    ∧ (nodeRect e).min.y ≤ (visibleRect e).min.y
    ∧ (visibleRect e).max.x ≤ (nodeRect e).max.x
    ∧ (visibleRect e).max.y ≤ (nodeRect e).max.y := by
  have hb : (nodeRect e).min.x ≤ (visibleRect e).min.x
      ∧ (nodeRect e).min.y ≤ (visibleRect e).min.y
      ∧ (visibleRect e).max.x ≤ (nodeRect e).max.x
      ∧ (visibleRect e).max.y ≤ (nodeRect e).max.y := by
    rcases e with ⟨n, g, it, fp, cl⟩
    cases cl with
    | none => exact ⟨le_refl _, le_refl _, le_refl _, le_refl _⟩
    | some c =>
      refine ⟨?_, ?_, ?_, ?_⟩ <;>
        simp [visibleRect, Vec2.compMax, Vec2.compMin, le_max_left, min_le_left]
  obtain ⟨hb1, hb2, hb3, hb4⟩ := hb
  have hvnone : visibleRect { e with clip := none } = nodeRect e := by
    rcases e with ⟨n, g, it, fp, cl⟩
    rfl
  simp only [containsCursor, Bool.and_eq_true, decide_eq_true_eq] at hhit
  obtain ⟨⟨hx1, hx2⟩, hy1, hy2⟩ := hhit
  refine ⟨?_, hb1, hb2, hb3, hb4⟩
  simp only [containsCursor, hvnone, Bool.and_eq_true, decide_eq_true_eq]
  exact ⟨⟨le_trans hb1 hx1, lt_of_lt_of_le hx2 hb3⟩,
    le_trans hb2 hy1, lt_of_lt_of_le hy2 hb4⟩

/-- Witness for C10: the witness element with a clip rectangle cutting its box
to (7.5, 7.5)-(11, 11) is hit at (10, 10); the theorem gives the unclipped hit
and the rectangle containment for it. -/
theorem C10_clip_only_shrinks_witness :
    containsCursor { wClipped with clip := none } wCursor = true
    ∧ (nodeRect wClipped).min.x ≤ (visibleRect wClipped).min.x
    ∧ (nodeRect wClipped).min.y ≤ (visibleRect wClipped).min.y
    ∧ (visibleRect wClipped).max.x ≤ (nodeRect wClipped).max.x
    ∧ (visibleRect wClipped).max.y ≤ (nodeRect wClipped).max.y :=
  C10_clip_only_shrinks wClipped wCursor (by with_unfolding_all decide)

/-- C3: every element's visible rectangle is its centered bounding box
(half-extents `size / 2`) intersected — component-wise max of mins, min of
maxes — with its clip rectangle when present; and an element whose visible
rectangle is empty or inverted on an axis is never a hit candidate. -/
theorem C3_visible_rect (e : Elem) (elems : List Elem) (p : Vec2) (j : Nat)
    (hj : j < elems.length)
    (hdeg : (visibleRect (elems.get ⟨j, hj⟩)).max.x ≤ (visibleRect (elems.get ⟨j, hj⟩)).min.x
      ∨ (visibleRect (elems.get ⟨j, hj⟩)).max.y ≤ (visibleRect (elems.get ⟨j, hj⟩)).min.y) :
    visibleRect e = e.clip.elim
        (spec_bounding_box e.global_transform.translation.truncate e.node.size)
        (fun c => spec_intersect
          (spec_bounding_box e.global_transform.translation.truncate e.node.size) c.clip)
    ∧ ∀ c ∈ candidates elems p, c.idx ≠ j := by
  constructor
  · rcases e with ⟨n, g, it, fp, cl⟩
    cases cl with
    | none => rfl
    | some c => rfl
  · intro c hc hcj
    obtain ⟨j', hj', hcnt, hceq⟩ := (mem_collectFrom p elems 0 c).1 hc
    have hjj : j' = j := by
      rw [hceq] at hcj
      simpa [mkCandidate] using hcj
    subst hjj
    simp only [containsCursor, Bool.and_eq_true, decide_eq_true_eq] at hcnt
    obtain ⟨⟨hx1, hx2⟩, hy1, hy2⟩ := hcnt
    rcases hdeg with hd | hd
    · exact absurd (lt_of_le_of_lt hx1 hx2) (not_lt.2 hd)
    · exact absurd (lt_of_le_of_lt hy1 hy2) (not_lt.2 hd)

/-- Witness for C3: `wDegenerate` has a clip disjoint from its bounding box,
so its visible rectangle is inverted and it yields no candidate at the cursor
over its box; the rectangle identity is checked on the clipped `wClipped`. -/
theorem C3_visible_rect_witness :
    visibleRect wClipped = wClipped.clip.elim
        (spec_bounding_box wClipped.global_transform.translation.truncate wClipped.node.size)
        (fun c => spec_intersect
          (spec_bounding_box wClipped.global_transform.translation.truncate wClipped.node.size)
          c.clip)
    ∧ ∀ c ∈ candidates [wDegenerate] wCursor, c.idx ≠ 0 := by
  have h := C3_visible_rect wClipped [wDegenerate] wCursor 0 (by decide)
    (by with_unfolding_all decide)
  exact h

/-- C4: an element with a non-degenerate visible rectangle is collected as a
hit candidate iff the cursor satisfies half-open containment on both axes
(`min ≤ cursor < max`); in particular a cursor exactly on a max edge is not a
hit. -/
theorem C4_half_open_containment (elems : List Elem) (p : Vec2) (j : Nat)
    (hj : j < elems.length)
    (hnd : (visibleRect (elems.get ⟨j, hj⟩)).min.x < (visibleRect (elems.get ⟨j, hj⟩)).max.x
      ∧ (visibleRect (elems.get ⟨j, hj⟩)).min.y < (visibleRect (elems.get ⟨j, hj⟩)).max.y) :
    ((∃ c ∈ candidates elems p, c.idx = j) ↔
      ((visibleRect (elems.get ⟨j, hj⟩)).min.x ≤ p.x
        ∧ p.x < (visibleRect (elems.get ⟨j, hj⟩)).max.x
        ∧ (visibleRect (elems.get ⟨j, hj⟩)).min.y ≤ p.y
        ∧ p.y < (visibleRect (elems.get ⟨j, hj⟩)).max.y))
    ∧ ((p.x = (visibleRect (elems.get ⟨j, hj⟩)).max.x
        ∨ p.y = (visibleRect (elems.get ⟨j, hj⟩)).max.y) →
        ¬ (∃ c ∈ candidates elems p, c.idx = j)) := by
  have hiff : (∃ c ∈ candidates elems p, c.idx = j) ↔
      ((visibleRect (elems.get ⟨j, hj⟩)).min.x ≤ p.x
        ∧ p.x < (visibleRect (elems.get ⟨j, hj⟩)).max.x
        ∧ (visibleRect (elems.get ⟨j, hj⟩)).min.y ≤ p.y
        ∧ p.y < (visibleRect (elems.get ⟨j, hj⟩)).max.y) := by
    constructor
    · rintro ⟨c, hc, hcj⟩
      obtain ⟨j', hj', hcnt, hceq⟩ := (mem_collectFrom p elems 0 c).1 hc
      have hjj : j' = j := by
        rw [hceq] at hcj
        simpa [mkCandidate] using hcj
      subst hjj
      simp only [containsCursor, Bool.and_eq_true, decide_eq_true_eq] at hcnt
      obtain ⟨⟨hx1, hx2⟩, hy1, hy2⟩ := hcnt
      exact ⟨hx1, hx2, hy1, hy2⟩
    · rintro ⟨hx1, hx2, hy1, hy2⟩
      refine ⟨mkCandidate (0 + j) (elems.get ⟨j, hj⟩), ?_, by simp [mkCandidate]⟩
      refine (mem_collectFrom p elems 0 _).2 ⟨j, hj, ?_, rfl⟩
      simp only [containsCursor, Bool.and_eq_true, decide_eq_true_eq]
      exact ⟨⟨hx1, hx2⟩, hy1, hy2⟩
  refine ⟨hiff, ?_⟩
  intro hedge hex
  obtain ⟨hx1, hx2, hy1, hy2⟩ := hiff.1 hex
  rcases hedge with he | he
  · rw [he] at hx2
    exact absurd hx2 (lt_irrefl _)
  · rw [he] at hy2
    exact absurd hy2 (lt_irrefl _)

/-- Witness for C4: the witness element's visible rectangle is
(7.5, 7.5)-(12.5, 12.5) and the cursor (10, 10) satisfies the half-open test,
so the element is a hit candidate, and a cursor on a max edge would not be. -/
theorem C4_half_open_containment_witness :
    ((∃ c ∈ candidates [wElem] wCursor, c.idx = 0) ↔
      ((visibleRect ([wElem].get ⟨0, by decide⟩)).min.x ≤ wCursor.x
        ∧ wCursor.x < (visibleRect ([wElem].get ⟨0, by decide⟩)).max.x
        ∧ (visibleRect ([wElem].get ⟨0, by decide⟩)).min.y ≤ wCursor.y
        ∧ wCursor.y < (visibleRect ([wElem].get ⟨0, by decide⟩)).max.y))
    ∧ ((wCursor.x = (visibleRect ([wElem].get ⟨0, by decide⟩)).max.x
        ∨ wCursor.y = (visibleRect ([wElem].get ⟨0, by decide⟩)).max.y) →
        ¬ (∃ c ∈ candidates [wElem] wCursor, c.idx = 0)) :=
  C4_half_open_containment [wElem] wCursor 0 (by decide) (by with_unfolding_all decide)

lemma countP_range_eq (i n : Nat) :
    (List.range n).countP (fun j => decide (j = i)) = if i < n then 1 else 0 := by
  induction n with
  | zero => simp
  | succ n ih =>
    rw [List.range_succ, List.countP_append, ih]
    rcases Nat.lt_trichotomy i n with h | h | h
    · have h2 : i < n + 1 := Nat.lt_succ_of_lt h
      have h3 : ¬ n = i := by omega
      simp [h, h2, List.countP_cons, h3]
    · subst h
      simp [List.countP_cons, Nat.lt_irrefl]
    · have h2 : ¬ i < n := by omega
      have h3 : ¬ i < n + 1 := by omega
      have h4 : ¬ n = i := by omega
      simp [h2, h3, List.countP_cons, h4]

lemma countP_idx_le_one (i : Nat) (cs : List Candidate)
    (hp : cs.Pairwise (fun a b => a.idx < b.idx)) :
    cs.countP (fun c => decide (c.idx = i)) ≤ 1 := by
  induction cs with
  | nil => simp
  | cons c rest ih =>
    rw [List.pairwise_cons] at hp
    obtain ⟨hhead, htail⟩ := hp
    rw [List.countP_cons]
    by_cases hc : c.idx = i
    · have hzero : rest.countP (fun c => decide (c.idx = i)) = 0 := by
        rw [List.countP_eq_zero]
        intro b hb
        have := hhead b hb
        simp only [decide_eq_true_eq]
        omega
      simp [hzero, hc]
    · simpa [hc] using ih htail

/-- C7: the write trace of a frame is the reset pass followed by the walker;
each tracked element receives exactly one reset write (value `None`), at most
one walker write (value `Clicked` or `Hovered`), and an element the walker
never writes ends the frame at `None` regardless of its prior state. -/
theorem C7_reset_pass_single_write (cursor : Option Vec2) (mouse : MouseInput)
    (touches : Touches) (elems : List Elem) (i : Nat) (h : i < elems.length) :
    writeTrace cursor mouse touches elems
        = resetWrites elems.length ++ walkerWrites cursor mouse touches elems
    ∧ (resetWrites elems.length).countP (fun w => decide (w.1 = i)) = 1
    ∧ (∀ w ∈ resetWrites elems.length, w.2 = Interaction.None)
    ∧ (walkerWrites cursor mouse touches elems).countP (fun w => decide (w.1 = i)) ≤ 1
    ∧ (∀ w ∈ walkerWrites cursor mouse touches elems,
        w.2 = Interaction.Clicked ∨ w.2 = Interaction.Hovered)
    ∧ (lastWriteTo i (walkerWrites cursor mouse touches elems) = none →
        (focus_ui cursor mouse touches elems)[i]? = some Interaction.None) := by
  refine ⟨rfl, ?_, ?_, ?_, ?_, ?_⟩
  · rw [resetWrites, List.countP_map]
    have : ((fun (w : Nat × Interaction) => decide (w.1 = i)) ∘
        (fun j => ((j, Interaction.None) : Nat × Interaction))) = fun j => decide (j = i) := rfl
    rw [this, countP_range_eq, if_pos h]
  · intro w hw
    obtain ⟨j, _, rfl⟩ := List.mem_map.1 hw
    rfl
  · cases cursor with
    | none => simp [walkerWrites]
    | some p =>
      show (walk (mouse_clicked mouse touches) (sortByKey (candidates elems p))).countP _ ≤ 1
      rw [walk_eq_map_visited, List.countP_map]
      have hcomp : ((fun (w : Nat × Interaction) => decide (w.1 = i)) ∘
          (fun (c : Candidate) => (c.idx, if mouse_clicked mouse touches then Interaction.Clicked
            else Interaction.Hovered))) = fun (c : Candidate) => decide (c.idx = i) := rfl
      rw [hcomp]
      have hsub : (visitedOf (sortByKey (candidates elems p))).countP
          (fun c => decide (c.idx = i)) ≤
          (sortByKey (candidates elems p)).countP (fun c => decide (c.idx = i)) :=
        List.Sublist.countP_le _ (List.take_sublist _ _)
      have hperm : (sortByKey (candidates elems p)).countP (fun c => decide (c.idx = i)) =
          (candidates elems p).countP (fun c => decide (c.idx = i)) :=
        (sortByKey_perm _).countP_eq _
      have hone : (candidates elems p).countP (fun c => decide (c.idx = i)) ≤ 1 :=
        countP_idx_le_one i _ (pairwise_idx_collectFrom p elems 0)
      omega
  · cases cursor with
    | none => simp [walkerWrites]
    | some p =>
      intro w hw
      have hw' : w ∈ walk (mouse_clicked mouse touches) (sortByKey (candidates elems p)) := hw
      rw [walk_eq_map_visited] at hw'
      obtain ⟨c, _, rfl⟩ := List.mem_map.1 hw'
      cases hmc : mouse_clicked mouse touches <;> simp [hmc]
  · intro hnone
    rw [focus_ui_char cursor mouse touches elems i h, hnone]
    rfl

/-- Witness for C7: one tracked element, cursor away from it, no input: the
element gets exactly one reset write, no walker write, and ends at `None`. -/
theorem C7_reset_pass_single_write_witness :
    writeTrace (some ⟨0, 0⟩) wMouseIdle wNoTouch [wElem]
        = resetWrites 1 ++ walkerWrites (some ⟨0, 0⟩) wMouseIdle wNoTouch [wElem]
    ∧ (resetWrites 1).countP (fun w => decide (w.1 = 0)) = 1
    ∧ (∀ w ∈ resetWrites 1, w.2 = Interaction.None)
    ∧ (walkerWrites (some ⟨0, 0⟩) wMouseIdle wNoTouch [wElem]).countP
        (fun w => decide (w.1 = 0)) ≤ 1
    ∧ (∀ w ∈ walkerWrites (some ⟨0, 0⟩) wMouseIdle wNoTouch [wElem],
        w.2 = Interaction.Clicked ∨ w.2 = Interaction.Hovered)
    ∧ (lastWriteTo 0 (walkerWrites (some ⟨0, 0⟩) wMouseIdle wNoTouch [wElem]) = none →
        (focus_ui (some ⟨0, 0⟩) wMouseIdle wNoTouch [wElem])[0]? = some Interaction.None) := by
  have h := C7_reset_pass_single_write (some ⟨0, 0⟩) wMouseIdle wNoTouch [wElem] 0 (by decide)
  simpa [resetWrites] using h

lemma setInteractions_length (elems : List Elem) (states : List Interaction)
    (h : states.length = elems.length) :
    (setInteractions elems states).length = elems.length := by
  rw [setInteractions, List.length_zipWith, h, Nat.min_self]

lemma collectFrom_setInteractions (p : Vec2) (elems : List Elem) (states : List Interaction)
    (i : Nat) (h : elems.length ≤ states.length) :
    collectFrom p i (setInteractions elems states) = collectFrom p i elems := by
  induction elems generalizing i states with
  | nil => simp [setInteractions, collectFrom]
  | cons e rest ih =>
    cases states with
    | nil => simp at h
    | cons s srest =>
      have hz : setInteractions (e :: rest) (s :: srest) =
          { e with interaction := s } :: setInteractions rest srest := rfl
      rw [hz, collectFrom, collectFrom]
      have hc : containsCursor { e with interaction := s } p = containsCursor e p := rfl
      have hm : mkCandidate i { e with interaction := s } = mkCandidate i e := rfl
      rw [hc, hm, ih srest (i + 1) (by simpa using Nat.le_of_succ_le_succ h)]

lemma walkerWrites_setInteractions (cursor : Option Vec2) (mouse : MouseInput)
    (touches : Touches) (elems : List Elem) (states : List Interaction)
    (h : states.length = elems.length) :
    walkerWrites cursor mouse touches (setInteractions elems states)
      = walkerWrites cursor mouse touches elems := by
  cases cursor with
  | none => rfl
  | some p =>
    show walk (mouse_clicked mouse touches)
        (sortByKey (collectFrom p 0 (setInteractions elems states)))
      = walk (mouse_clicked mouse touches) (sortByKey (collectFrom p 0 elems))
    rw [collectFrom_setInteractions p elems states 0 (le_of_eq h.symm)]

/-- C8: the output of one run of the pass does not depend on the interaction
states the elements held before the run; in particular running the pass twice
in a row with unchanged input produces identical interaction states. -/
theorem C8_output_independent_of_prior_state (cursor : Option Vec2) (mouse : MouseInput)
    (touches : Touches) (elems : List Elem) (states : List Interaction)
    (h : states.length = elems.length) :
    focus_ui cursor mouse touches (setInteractions elems states)
        = focus_ui cursor mouse touches elems
    ∧ focus_ui cursor mouse touches
        (setInteractions elems (focus_ui cursor mouse touches elems))
        = focus_ui cursor mouse touches elems := by
  have main : ∀ ss : List Interaction, ss.length = elems.length →
      focus_ui cursor mouse touches (setInteractions elems ss)
        = focus_ui cursor mouse touches elems := by
    intro ss hss
    have hlen := setInteractions_length elems ss hss
    apply List.ext_getElem?
    intro i
    by_cases hi : i < elems.length
    · rw [focus_ui_char cursor mouse touches (setInteractions elems ss) i (hlen ▸ hi),
        focus_ui_char cursor mouse touches elems i hi,
        walkerWrites_setInteractions cursor mouse touches elems ss hss]
    · have h1 : (focus_ui cursor mouse touches (setInteractions elems ss))[i]? = none := by
        rw [List.getElem?_eq_none_iff, focus_ui_length, hlen]
        exact Nat.le_of_not_lt hi
      have h2 : (focus_ui cursor mouse touches elems)[i]? = none := by
        rw [List.getElem?_eq_none_iff, focus_ui_length]
        exact Nat.le_of_not_lt hi
      rw [h1, h2]
  exact ⟨main states h, main _ (focus_ui_length cursor mouse touches elems)⟩

/-- Witness for C8: replacing the single element's prior `Clicked` state by
`Hovered` (or by the pass's own output) does not change the result. -/
theorem C8_output_independent_of_prior_state_witness :
    focus_ui (some wCursor) wMouseIdle wNoTouch
        (setInteractions [wElem] [Interaction.Clicked])
        = focus_ui (some wCursor) wMouseIdle wNoTouch [wElem]
    ∧ focus_ui (some wCursor) wMouseIdle wNoTouch
        (setInteractions [wElem] (focus_ui (some wCursor) wMouseIdle wNoTouch [wElem]))
        = focus_ui (some wCursor) wMouseIdle wNoTouch [wElem] :=
  C8_output_independent_of_prior_state (some wCursor) wMouseIdle wNoTouch [wElem]
    [Interaction.Clicked] (by decide)

/-- C9: while the cursor stays over an element visited by the walker, a held
left mouse button makes the element report `Clicked` that frame, and a frame
with the button neither just-pressed nor held and no primary-touch release
makes the same element report `Hovered`, not `Clicked`. -/
theorem C9_release_edge_timing (p : Vec2) (mouse : MouseInput) (touches : Touches)
    (elems : List Elem) (i : Nat)
    (hvis : i ∈ (visitedOf (sortByKey (candidates elems p))).map Candidate.idx)
    (hheld : mouse.pressed_left = true) :
    (focus_ui (some p) mouse touches elems)[i]? = some Interaction.Clicked
    ∧ (focus_ui (some p) ⟨false, false⟩ ⟨[]⟩ elems)[i]? = some Interaction.Hovered := by
  have hlt : i < elems.length := by
    obtain ⟨c, hc, rfl⟩ := List.mem_map.1 hvis
    have hcs : c ∈ sortByKey (candidates elems p) :=
      List.take_subset _ _ hc
    exact idx_lt_of_mem_candidates elems p c ((sortByKey_perm _).mem_iff.1 hcs)
  have hclick : mouse_clicked mouse touches = true := by
    simp [mouse_clicked, hheld]
  have hidle : mouse_clicked ⟨false, false⟩ ⟨[]⟩ = false := rfl
  constructor
  · rw [focus_ui_some_char mouse touches elems p i hlt]
    simp [hvis, hclick]
  · rw [focus_ui_some_char ⟨false, false⟩ ⟨[]⟩ elems p i hlt]
    simp [hvis, hidle]

/-- Witness for C9: cursor over the single witness element, mouse held in the
first frame, all input released in the next: `Clicked` then `Hovered`. -/
theorem C9_release_edge_timing_witness :
    (focus_ui (some wCursor) wMouseHeld wNoTouch [wElem])[0]? = some Interaction.Clicked
    ∧ (focus_ui (some wCursor) ⟨false, false⟩ ⟨[]⟩ [wElem])[0]? = some Interaction.Hovered :=
  C9_release_edge_timing wCursor wMouseHeld wNoTouch [wElem] 0
    (by with_unfolding_all decide) (by decide)

end Focus
